import Mathlib

/-!
Verification development for the rookup toolchain manager.

The definitions below are a shallow embedding of the Rust sources:
`rookup-common-base/src/version.rs` (version algebra),
`rookup-common-base/src/toolchain.rs` (selector parsing/display and the
two-root toolchain locator), `rookup/src/sp_from_sm.rs` (install path
filter), `rookup/src/smdrop/versions.rs` and `rookup/src/smdrop_util.rs`
(remote version parsing and branch selection), and
`rookup/src/main.rs` together with `rookup/src/smdrop/archive.rs`
(the install pipeline).  Strings are Lean `String`s; Rust byte-level
string operations are modelled on the underlying character lists
(valid UTF-8 byte order coincides with code-point order, and byte
lengths are modelled with per-character UTF-8 sizes).
-/

namespace Rookup

/-- Splitting a character list on a separator character, modelling Rust
`str::split(sep)`: the result always has one more piece than there are
separators, and the empty input yields one empty piece. -/
def splitOnChar (sep : Char) : List Char → List (List Char)
  | [] => [[]]
  | c :: rest =>
    if c = sep then [] :: splitOnChar sep rest
    else
      match splitOnChar sep rest with
      | [] => [[c]]
      | p :: ps => (c :: p) :: ps

/-- `Version::iter_parts` for `str` (version.rs): the dot-separated parts of
a version string, in order. -/
def iter_parts (s : String) : List String :=
  (splitOnChar '.' s.data).map (fun cs => String.mk cs)

/-- `Relation` (version.rs): the relation of one version to another. -/
inductive Relation where
  | Equal
  | Different
  | IsSubVersionOf
  | IsSuperVersionOf
deriving DecidableEq, Repr

/-- The loop of `Version::relation_to` (version.rs lines 25-40), walking the
two part sequences pairwise.  `(Some, None)` breaks with `IsSubVersionOf`,
`(None, Some)` breaks with `IsSuperVersionOf`, `(None, None)` with `Equal`,
and the first differing pair breaks with `Different`. -/
def relation_to_parts : List String → List String → Relation
  | [], [] => .Equal
  | _ :: _, [] => .IsSubVersionOf
  | [], _ :: _ => .IsSuperVersionOf
  | s :: ss, o :: os => if s ≠ o then .Different else relation_to_parts ss os

/-- `Version::relation_to` on version strings. -/
def relation_to (a b : String) : Relation :=
  relation_to_parts (iter_parts a) (iter_parts b)

/-- `Version::is_sub_version_of` (version.rs lines 44-46):
`matches!(relation_to, Equal | IsSubVersionOf)`. -/
def is_sub_version_of (a other : String) : Bool :=
  match relation_to a other with
  | .Equal => true
  | .IsSubVersionOf => true
  | _ => false

/-- Comparison of natural numbers as an `Ordering`, modelling Rust
`usize::cmp`. -/
def natCmp (a b : Nat) : Ordering :=
  if a < b then .lt else if b < a then .gt else .eq

/-- Lexicographic comparison of character lists, modelling Rust `str::cmp`
(byte-lexicographic, which on valid UTF-8 equals code-point order). -/
def lexCmpChars : List Char → List Char → Ordering
  | [], [] => .eq
  | [], _ :: _ => .lt
  | _ :: _, [] => .gt
  | a :: as_, b :: bs =>
    if a < b then .lt else if b < a then .gt else lexCmpChars as_ bs

/-- UTF-8 byte length of a character list, modelling Rust `str::len`. -/
def utf8Len (l : List Char) : Nat :=
  l.foldl (fun n c => n + c.utf8Size) 0

/-- `Part::cmp` (version.rs lines 111-118): compare byte lengths first, and
only lexicographically when the lengths are equal. -/
def partCmp (a b : String) : Ordering :=
  (natCmp (utf8Len a.data) (utf8Len b.data)).then (lexCmpChars a.data b.data)

/-- The body of `version_ord` (version.rs lines 63-69) on part sequences:
fold `Ordering::then` of the pairwise part comparisons over the zip of the
two sequences, starting from `Equal`. -/
def version_ord_parts (a b : List String) : Ordering :=
  (a.zip b).foldl (fun ord p => ord.then (partCmp p.1 p.2)) .eq

/-- `version_ord` (version.rs) on version strings. -/
def version_ord (a b : String) : Ordering :=
  version_ord_parts (iter_parts a) (iter_parts b)

/-- `Selector` (toolchain.rs lines 60-63). -/
inductive Selector where
  | Super (s : String)
  | Alias (s : String)
deriving DecidableEq, Repr

/-- `Selector::parse` (toolchain.rs lines 68-72):
`strip_prefix(':')` maps to `Super`, otherwise the whole text is `Alias`. -/
def Selector.parse (s : String) : Selector :=
  match s.data with
  | c :: cs => if c = ':' then .Super (String.mk cs) else .Alias s
  | [] => .Alias s

/-- The `fmt::Display` implementation for `Selector` (toolchain.rs lines
106-116): `Super` writes the `':'` marker character followed by its text,
`Alias` writes its text bare. -/
def Selector.display : Selector → String
  | .Super s => String.mk (':' :: s.data)
  | .Alias s => s

/-- A lexically cleaned path, modelling the `PathBuf` produced by
`clean_path::clean`: an absolute-path flag and the remaining components in
order.  After cleaning, `".."` components can only appear as a leading run
of a relative path, and a `"."` component only as the entire path. -/
structure CleanedPath where
  absolute : Bool
  components : List String
deriving DecidableEq, Repr

/-- One step of `clean_path::clean` over path components, modelled from the
rules the crate documents (Go `path.Clean`): drop empty and `"."`
components, let `".."` cancel a preceding normal component, drop `".."`
just after the root of an absolute path, and keep `".."` when there is
nothing to cancel in a relative path.  `out` is the stack of output
components in reverse order. -/
def cleanStep (absolute : Bool) (out : List String) (c : String) : List String :=
  if c = "" ∨ c = "." then out
  else if c = ".." then
    match out with
    | [] => if absolute then [] else [".."]
    | top :: rest => if top = ".." then c :: out else rest
  else c :: out

/-- `clean_path::clean` on a path given as a string (third-party dependency
used by sp_from_sm.rs; modelled from the lexical-cleaning rules its
documentation states, which are those of Go `path.Clean`): an empty
relative result becomes the path `"."`. -/
def clean (s : String) : CleanedPath :=
  let absolute := s.data.head? = some '/'
  let comps := (splitOnChar '/' s.data).map (fun cs => String.mk cs)
  let out := comps.foldl (cleanStep absolute) []
  { absolute := absolute
    components := if out.isEmpty && !absolute then ["."] else out.reverse }

/-- `SM_SP_ROOT` (sp_from_sm.rs line 6). -/
def SM_SP_ROOT : String := "addons/sourcemod/scripting/"

/-- `map_to_sp_root` (sp_from_sm.rs lines 8-14): require the fixed root
as a leading string, drain it, require a non-empty remainder, and clean
the remainder.  No further check is made on the cleaned result. -/
def map_to_sp_root (name : String) : Option CleanedPath :=
  if SM_SP_ROOT.data.isPrefixOf name.data then
    let rest := String.mk (name.data.drop SM_SP_ROOT.data.length)
    if rest.data.isEmpty then none else some (clean rest)
  else none

/-- `is_compiler` (rookup-common-base/src/lib.rs lines 54-56), parametrised
by the target's compiler executable file name `SPCOMP_EXE` (on 64-bit unix
targets this is `"spcomp64"`). -/
def is_compiler (spcompExe fileName : String) : Bool :=
  fileName = spcompExe

/-- `Path::starts_with("include")` on a cleaned path: component-wise, the
first component of a relative path is `"include"`. -/
def starts_with_include (p : CleanedPath) : Bool :=
  !p.absolute && p.components.head? = some "include"

/-- `Path::file_name` on a cleaned path: the last component when it is a
normal component; a path ending in `".."` (or being `"."` or a bare root)
has no file name. -/
def path_file_name (p : CleanedPath) : Option String :=
  match p.components.getLast? with
  | some c => if c = ".." ∨ c = "." then none else some c
  | none => none

/-- `is_sp_file` (sp_from_sm.rs lines 16-23): keep paths inside `include`,
otherwise keep exactly the platform compiler executable file name. -/
def is_sp_file (spcompExe : String) (p : CleanedPath) : Bool :=
  if starts_with_include p then true
  else
    match path_file_name p with
    | some n => is_compiler spcompExe n
    | none => false

/-- Whether joining this cleaned path onto a destination directory resolves
outside the destination: an absolute path replaces the destination
entirely, and a leading `".."` component climbs above it. -/
def escapes_destination (p : CleanedPath) : Bool :=
  p.absolute || p.components.head? = some ".."

/-- Environment for the toolchain locator (toolchain.rs): the two home
roots as component lists (`none` models `custom_toolchain_home()` or
`toolchain_home()` returning `None`), a filesystem existence oracle for
`Path::exists`, and a directory-listing oracle for `read_dir` restricted
to subdirectory names (`none` models a `read_dir` error). -/
structure ToolchainEnv where
  customHome : Option (List String)
  cacheHome : Option (List String)
  pathExists : List String → Bool
  dirNames : List String → Option (List String)

/-- The sequence of home roots produced by iterating `ToolchainHomes`
(toolchain.rs lines 276-291).  The iterator yields
`custom_toolchain_home()` and then `toolchain_home()` directly as its
`Option` items, so an undetermined custom home ends the iteration before
the cache home is ever produced. -/
def ToolchainEnv.homes (env : ToolchainEnv) : List (List String) :=
  match env.customHome with
  | none => []
  | some c =>
    c :: (match env.cacheHome with
          | none => []
          | some h => [h])

/-- `find_toolchain_path` (toolchain.rs lines 195-200): `find_map` over the
homes, returning the first `home.join(version)` that exists. -/
def find_toolchain_path (env : ToolchainEnv) (version : String) : Option (List String) :=
  env.homes.findSome? fun home =>
    let path := home ++ [version]
    if env.pathExists path then some path else none

/-- One step of `Iterator::max_by` with comparator `version_ord`: keep the
current maximum, replacing it whenever the new element does not compare
strictly below it, so the last of several tied maxima wins. -/
def max_by_step (acc : Option String) (x : String) : Option String :=
  match acc with
  | none => some x
  | some a => if version_ord a x = .gt then some a else some x

/-- `Iterator::max_by` with comparator `version_ord`, as the Rust fold of
`max_by_step` starting from `None`. -/
def max_by_version_ord (l : List String) : Option String :=
  l.foldl max_by_step none

/-- `find_latest_toolchain_of` (toolchain.rs lines 203-213): walk the homes
in order, skip a home whose `read_dir` failed (`flat_map` over the
`Result`), and inside each remaining home take `max_by(version_ord)` of
the directory names related to the super-version; `find_map` returns the
first home that produced a maximum. -/
def find_latest_toolchain_of (env : ToolchainEnv) (super_version : String) :
    Option (String × List String) :=
  env.homes.findSome? fun home =>
    match env.dirNames home with
    | none => none
    | some names =>
      (max_by_version_ord (names.filter fun n => is_sub_version_of n super_version)).map
        fun name => (name, home)

/-- Stable insertion of an element into a list sorted ascending by
`version_ord`: the element goes in front of the first entry it does not
compare strictly above, so it lands after all earlier tied entries. -/
def insertV (x : String) : List String → List String
  | [] => [x]
  | y :: ys => if version_ord x y ≠ .gt then x :: y :: ys else y :: insertV x ys

/-- Stable ascending sort by `version_ord`, modelling
`Vec::sort_by(branch_ord)` in `ClientExt::select_branch`
(smdrop_util.rs lines 79-84). -/
def sortV : List String → List String
  | [] => []
  | x :: xs => insertV x (sortV xs)

/-- The `Selector::Alias("stable")` arm of `ClientExt::select_branch`
(smdrop_util.rs lines 79-84) on the collected branch names: sort ascending
by `version_ord`, `pop` the most-recent branch away, and return the next
`pop` (the second-most-recent), which is `None` when fewer than two
branches exist. -/
def select_branch_stable (branches : List String) : Option String :=
  match (sortV branches).reverse with
  | _ :: second :: _ => some second
  | _ => none

/-- `str::split_once(sep)` on character lists: split at the first
occurrence of the separator. -/
def splitOnceChar (sep : Char) : List Char → Option (List Char × List Char)
  | [] => none
  | c :: rest =>
    if c = sep then some ([], rest)
    else (splitOnceChar sep rest).map (fun p => (c :: p.1, p.2))

/-- `str::rsplit_once(sep)` on character lists: split at the last
occurrence of the separator. -/
def rsplitOnceChar (sep : Char) (l : List Char) : Option (List Char × List Char) :=
  (splitOnceChar sep l.reverse).map (fun p => (p.2.reverse, p.1.reverse))

/-- `str::split_once(pat)` for a multi-character pattern on character
lists: split around the first occurrence of the pattern. -/
def splitOnceSeq (pat : List Char) : List Char → Option (List Char × List Char)
  | [] => if pat.isPrefixOf ([] : List Char) then some ([], []) else none
  | c :: rest =>
    if pat.isPrefixOf (c :: rest) then some ([], (c :: rest).drop pat.length)
    else (splitOnceSeq pat rest).map (fun p => (c :: p.1, p.2))

/-- `VersionUrl::file_name` (smdrop/versions.rs lines 34-37):
`rsplit_once('/')`, keeping the part after the last separator, with the
whole URL as fallback. -/
def url_file_name (url : String) : String :=
  match rsplitOnceChar '/' url.data with
  | some p => String.mk p.2
  | none => url

/-- `VersionUrl::target` (smdrop/versions.rs lines 40-46): the suffix after
the last `'-'` of the file name, truncated at its first `'.'`. -/
def url_target (url : String) : Option String :=
  (rsplitOnceChar '-' (url_file_name url).data).map fun p =>
    match splitOnceChar '.' p.2 with
    | some q => String.mk q.1
    | none => String.mk p.2

/-- `VersionUrl::version_str` (smdrop/versions.rs lines 49-53): the part of
the file name after its first `'-'` and before its last `'-'`. -/
def url_version_str (url : String) : Option String := do
  let p ← splitOnceChar '-' (url_file_name url).data
  let q ← rsplitOnceChar '-' p.2
  pure (String.mk q.1)

/-- `VersionStr::normalized` (smdrop/versions.rs lines 98-116): when the
version contains a `"-git"` marker, replace its first occurrence by a dot
(the split pieces are rejoined with `'.'`); otherwise the string is
returned unchanged. -/
def version_normalized (v : String) : String :=
  match splitOnceSeq ['-', 'g', 'i', 't'] v.data with
  | some p => String.mk (p.1 ++ '.' :: p.2)
  | none => v

/-- `RelevantUrl` (smdrop_util.rs lines 24-27). -/
structure RelevantUrl where
  url : String
  version : String
deriving DecidableEq, Repr

/-- `RelevantUrl::new` (smdrop_util.rs lines 30-43), parametrised by the
running platform identifier `std::env::consts::OS`: drop the entry when
its target is absent or differs from the platform, or when its version is
absent or is the sentinel `"latest"`; otherwise keep it with the
normalized version string. -/
def RelevantUrl.new (os url : String) : Option RelevantUrl :=
  let targetBad : Bool :=
    match url_target url with
    | none => true
    | some t => decide (t ≠ os)
  let versionBad : Bool :=
    match url_version_str url with
    | none => true
    | some v => decide (v = "latest")
  if targetBad || versionBad then none
  else
    match url_version_str url with
    | none => none
    | some v => some { url := url, version := version_normalized v }

/-- `ArchiveKind` (smdrop/archive.rs lines 190-193). -/
inductive ArchiveKind where
  | Zip
  | TarGz
deriving DecidableEq, Repr

/-- `ArchiveKind::from_str` (smdrop/archive.rs lines 197-205): purely a
suffix test on the string (the source URL), `".zip"` before `".tar.gz"`,
anything else is unsupported (`none`). -/
def ArchiveKind.from_str (s : String) : Option ArchiveKind :=
  if (".zip".data).isSuffixOf s.data then some .Zip
  else if (".tar.gz".data).isSuffixOf s.data then some .TarGz
  else none

/-- One logical archive entry of the response body, as surfaced by
`Archive::entries` (smdrop/archive.rs): the raw entry name after UTF-8
validation (`none` models a name that fails `String::from_utf8`), the
is-directory flag, and — for the streamed tar.gz path — the response-body
positions reached after reading the entry's header (`hdrEnd`) and after
reading its data (`datEnd`). -/
structure ArchiveEntryData where
  name : Option String
  isDir : Bool
  hdrEnd : Nat
  datEnd : Nat
deriving DecidableEq, Repr

/-- The remote response body: its total byte length, and the archive
entries it decodes to. -/
structure RemoteBody where
  len : Nat
  entries : List ArchiveEntryData
deriving DecidableEq, Repr

/-- Observable effects of `InstallVersion::call` (main.rs lines 337-375):
the HTTP GET issued against the source URL, and each file created under
the destination. -/
inductive InstallEvent where
  | httpGet (url : String)
  | fileWrite (path : CleanedPath)
deriving DecidableEq, Repr

/-- Failure outcomes of `InstallVersion::call`: `transfer` models a ureq
body error (the configured size limit exceeded while buffering),
`format` models `ArchiveKind::from_str` failing, and `pipe` models
`io::copy` failing for an entry after its file was created. -/
inductive InstallFailure where
  | transfer
  | format
  | pipe (path : CleanedPath)
deriving DecidableEq, Repr

instance : DecidableEq (Except InstallFailure Unit) := fun a b =>
  match a, b with
  | .ok (), .ok () => isTrue rfl
  | .error x, .error y =>
    if h : x = y then isTrue (by rw [h])
    else isFalse (fun hh => by cases hh; exact h rfl)
  | .ok (), .error _ => isFalse (fun hh => by cases hh)
  | .error _, .ok () => isFalse (fun hh => by cases hh)

/-- Parameters of `InstallVersion` (main.rs lines 329-334) together with
the remote body the server would answer with and the platform compiler
executable name. -/
structure InstallParams where
  url : String
  maxBytes : Nat
  body : RemoteBody
  spcompExe : String

/-- The entry loop of `InstallVersion::call` on the zip path: the whole
body is already buffered, each entry is materialised from the buffer, the
name must be UTF-8, pass `map_to_sp_root` and `is_sp_file`, and
non-directory survivors are written out.  Filesystem operations are
assumed to succeed. -/
def zip_loop (spcompExe : String) : List ArchiveEntryData → List InstallEvent →
    List InstallEvent × Except InstallFailure Unit
  | [], evs => (evs, .ok ())
  | e :: rest, evs =>
    match e.name.bind map_to_sp_root with
    | none => zip_loop spcompExe rest evs
    | some path =>
      if is_sp_file spcompExe path then
        if e.isDir then zip_loop spcompExe rest evs
        else zip_loop spcompExe rest (evs ++ [.fileWrite path])
      else zip_loop spcompExe rest evs

/-- The entry loop of `InstallVersion::call` on the streamed tar.gz path.
The size limit lives on the network reader, so it strikes while entries
are consumed: when the next entry's header lies beyond `maxBytes` the read
error is swallowed by the `.ok()?` in `Entries::next`, the iteration ends,
and the install reports success with whatever was already written; when an
entry's data lies beyond `maxBytes` the failure surfaces from `io::copy`
after the entry's file was already created. -/
def targz_loop (spcompExe : String) (maxBytes : Nat) :
    List ArchiveEntryData → List InstallEvent →
    List InstallEvent × Except InstallFailure Unit
  | [], evs => (evs, .ok ())
  | e :: rest, evs =>
    if maxBytes < e.hdrEnd then (evs, .ok ())
    else
      match e.name.bind map_to_sp_root with
      | none => targz_loop spcompExe maxBytes rest evs
      | some path =>
        if is_sp_file spcompExe path then
          if e.isDir then targz_loop spcompExe maxBytes rest evs
          else if maxBytes < e.datEnd then
            (evs ++ [.fileWrite path], .error (.pipe path))
          else targz_loop spcompExe maxBytes rest (evs ++ [.fileWrite path])
        else targz_loop spcompExe maxBytes rest evs

/-- `InstallVersion::call` (main.rs lines 337-375): the HTTP GET is issued
first; only then is the archive format determined from the URL suffix,
failing with a format error for any other suffix.  On the zip path
`Archive::new` buffers the whole bounded body before any extraction, so a
body longer than `maxBytes` fails there as a transfer error with nothing
written; on the tar.gz path the archive is streamed lazily by
`targz_loop`. -/
def install_call (p : InstallParams) : List InstallEvent × Except InstallFailure Unit :=
  let evs := [InstallEvent.httpGet p.url]
  match ArchiveKind.from_str p.url with
  | none => (evs, .error .format)
  | some .Zip =>
    if p.maxBytes < p.body.len then (evs, .error .transfer)
    else zip_loop p.spcompExe p.body.entries evs
  | some .TarGz => targz_loop p.spcompExe p.maxBytes p.body.entries evs

/-- Toolchain environment used to settle claim C2: the custom root holds
the matching toolchain `1.12.0` while the cache root holds the strictly
newer matching toolchain `1.12.5`. -/
def envC2 : ToolchainEnv where
  customHome := some ["custom"]
  cacheHome := some ["cache"]
  pathExists := fun _ => false
  dirNames := fun h =>
    if h = ["custom"] then some ["1.12.0"]
    else if h = ["cache"] then some ["1.12.5"]
    else none

/-- Toolchain environment used to witness claim C7: version `1.12` is
installed under both the custom root and the cache root. -/
def envC7 : ToolchainEnv where
  customHome := some ["c"]
  cacheHome := some ["h"]
  pathExists := fun p => decide (p = ["c", "1.12"] ∨ p = ["h", "1.12"])
  dirNames := fun _ => none

/-- Install parameters used for claim C3's counterexample: a tar.gz body
of 1000 bytes against a 600-byte limit, whose first entry (an `include`
file) lies entirely below the limit while the second entry's header lies
beyond it. -/
def paramsC3cex : InstallParams where
  url := "http://h/sm.tar.gz"
  maxBytes := 600
  body :=
    { len := 1000
      entries :=
        [ { name := some "addons/sourcemod/scripting/include/a.inc"
            isDir := false, hdrEnd := 100, datEnd := 500 }
        , { name := some "addons/sourcemod/scripting/include/b.inc"
            isDir := false, hdrEnd := 700, datEnd := 900 } ] }
  spcompExe := "spcomp64"

/-- Install parameters used for claim C3's amended statement: a tar.gz
body of 1000 bytes against a 600-byte limit, whose single entry's data
region crosses the limit, so the copy fails after the file was created. -/
def paramsC3pipe : InstallParams where
  url := "http://h/sm.tar.gz"
  maxBytes := 600
  body :=
    { len := 1000
      entries :=
        [ { name := some "addons/sourcemod/scripting/include/a.inc"
            isDir := false, hdrEnd := 100, datEnd := 800 } ] }
  spcompExe := "spcomp64"

/-- Install parameters used for claim C4's counterexample: a source URL
with an unsupported suffix. -/
def paramsC4cex : InstallParams where
  url := "http://h/sm.rar"
  maxBytes := 100
  body := { len := 10, entries := [] }
  spcompExe := "spcomp64"

/-- Install parameters used for claim C1: a tar.gz archive whose single
entry name starts with the fixed root but climbs out of it and ends in the
platform compiler executable name. -/
def paramsC1 : InstallParams where
  url := "http://h/sm.tar.gz"
  maxBytes := 1000
  body :=
    { len := 500
      entries :=
        [ { name := some "addons/sourcemod/scripting/../../spcomp64"
            isDir := false, hdrEnd := 100, datEnd := 400 } ] }
  spcompExe := "spcomp64"

theorem ordering_then_eq (o : Ordering) : o.then .eq = o := by
  cases o <;> rfl

theorem ordering_eq_then (o : Ordering) : Ordering.eq.then o = o := rfl

theorem ordering_then_assoc (a b c : Ordering) :
    (a.then b).then c = a.then (b.then c) := by
  cases a <;> rfl

theorem ordering_then_swap (a b : Ordering) :
    (a.then b).swap = a.swap.then b.swap := by
  cases a <;> rfl

theorem foldl_then {α : Type} (f : α → Ordering) (l : List α) :
    ∀ o : Ordering,
      l.foldl (fun acc x => acc.then (f x)) o =
        o.then (l.foldl (fun acc x => acc.then (f x)) .eq) := by
  induction l with
  | nil => intro o; exact (ordering_then_eq o).symm
  | cons x xs ih =>
    intro o
    rw [List.foldl_cons, List.foldl_cons, ih (o.then (f x)), ordering_then_assoc,
      ordering_eq_then, ← ih (f x)]

theorem version_ord_parts_cons (x y : String) (xs ys : List String) :
    version_ord_parts (x :: xs) (y :: ys) =
      (partCmp x y).then (version_ord_parts xs ys) := by
  unfold version_ord_parts
  rw [List.zip_cons_cons, List.foldl_cons, ordering_eq_then,
    foldl_then (fun p : String × String => partCmp p.1 p.2)]

theorem version_ord_parts_nil_left (b : List String) :
    version_ord_parts [] b = .eq := rfl

theorem version_ord_parts_nil_right (a : List String) :
    version_ord_parts a [] = .eq := by
  unfold version_ord_parts
  rw [List.zip_nil_right]
  rfl

theorem natCmp_self (a : Nat) : natCmp a a = .eq := by
  simp [natCmp]

theorem lexCmpChars_self (l : List Char) : lexCmpChars l l = .eq := by
  induction l with
  | nil => rfl
  | cons c cs ih => simp [lexCmpChars, ih]

theorem partCmp_self (x : String) : partCmp x x = .eq := by
  rw [partCmp, natCmp_self, lexCmpChars_self]
  rfl

theorem natCmp_swap (a b : Nat) : natCmp a b = (natCmp b a).swap := by
  unfold natCmp
  rcases Nat.lt_trichotomy a b with h | h | h
  · simp [h, Nat.lt_asymm h]
    rfl
  · simp [h, Nat.lt_irrefl]
    rfl
  · simp [h, Nat.lt_asymm h]
    rfl

theorem lexCmpChars_swap (a : List Char) :
    ∀ b : List Char, lexCmpChars a b = (lexCmpChars b a).swap := by
  induction a with
  | nil => intro b; cases b <;> rfl
  | cons x xs ih =>
    intro b
    cases b with
    | nil => rfl
    | cons y ys =>
      rcases lt_trichotomy x y with h | h | h
      · simp [lexCmpChars, h, not_lt_of_gt h, ne_of_lt h]
        rfl
      · subst h
        simp [lexCmpChars, lt_irrefl, ih ys]
      · simp [lexCmpChars, h, not_lt_of_gt h]
        rfl

theorem partCmp_swap (a b : String) : partCmp a b = (partCmp b a).swap := by
  rw [partCmp, partCmp, ordering_then_swap, ← natCmp_swap, ← lexCmpChars_swap]

theorem version_ord_parts_swap (a : List String) :
    ∀ b : List String, version_ord_parts a b = (version_ord_parts b a).swap := by
  induction a with
  | nil =>
    intro b
    rw [version_ord_parts_nil_left, version_ord_parts_nil_right]
    rfl
  | cons x xs ih =>
    intro b
    cases b with
    | nil =>
      rw [version_ord_parts_nil_left, version_ord_parts_nil_right]
      rfl
    | cons y ys =>
      rw [version_ord_parts_cons, version_ord_parts_cons, ordering_then_swap,
        ← partCmp_swap, ← ih ys]

theorem version_ord_swap (a b : String) :
    version_ord a b = (version_ord b a).swap := by
  unfold version_ord
  exact version_ord_parts_swap _ _

theorem version_ord_parts_append_right (xs l : List String) :
    version_ord_parts xs (xs ++ l) = .eq := by
  induction xs with
  | nil => rfl
  | cons x xs ih =>
    rw [List.cons_append, version_ord_parts_cons, partCmp_self, ordering_eq_then, ih]

theorem version_ord_parts_append_left (xs l : List String) :
    version_ord_parts (xs ++ l) xs = .eq := by
  rw [version_ord_parts_swap, version_ord_parts_append_right]
  rfl

theorem relation_to_parts_self (xs : List String) :
    relation_to_parts xs xs = .Equal := by
  induction xs with
  | nil => rfl
  | cons x xs ih => simp [relation_to_parts, ih]

theorem relation_to_parts_append_right (xs l : List String) (hl : l ≠ []) :
    relation_to_parts xs (xs ++ l) = .IsSuperVersionOf := by
  induction xs with
  | nil =>
    cases l with
    | nil => exact absurd rfl hl
    | cons y ys => rfl
  | cons x xs ih => simp [relation_to_parts, ih]

theorem relation_to_parts_append_left (xs l : List String) (hl : l ≠ []) :
    relation_to_parts (xs ++ l) xs = .IsSubVersionOf := by
  induction xs with
  | nil =>
    cases l with
    | nil => exact absurd rfl hl
    | cons y ys => rfl
  | cons x xs ih => simp [relation_to_parts, ih]

theorem max_by_fold (l : List String) :
    ∀ a : String,
      ∃ m, l.foldl max_by_step (some a) = some m ∧ (m = a ∨ m ∈ l) := by
  induction l with
  | nil => intro a; exact ⟨a, rfl, Or.inl rfl⟩
  | cons x xs ih =>
    intro a
    rw [List.foldl_cons]
    by_cases h : version_ord a x = .gt
    · rw [show max_by_step (some a) x = some a from by simp [max_by_step, h]]
      obtain ⟨m, hm, hmem⟩ := ih a
      exact ⟨m, hm, hmem.imp id (List.mem_cons_of_mem x)⟩
    · rw [show max_by_step (some a) x = some x from by simp [max_by_step, h]]
      obtain ⟨m, hm, hmem⟩ := ih x
      refine ⟨m, hm, Or.inr ?_⟩
      rcases hmem with h1 | h1
      · exact h1 ▸ List.mem_cons_self x xs
      · exact List.mem_cons_of_mem x h1

theorem max_by_version_ord_ne_nil (l : List String) (hl : l ≠ []) :
    ∃ m, max_by_version_ord l = some m ∧ m ∈ l := by
  cases l with
  | nil => exact absurd rfl hl
  | cons x xs =>
    unfold max_by_version_ord
    rw [List.foldl_cons, show max_by_step none x = some x from rfl]
    obtain ⟨m, hm, hmem⟩ := max_by_fold xs x
    refine ⟨m, hm, ?_⟩
    rcases hmem with h1 | h1
    · exact h1 ▸ List.mem_cons_self x xs
    · exact List.mem_cons_of_mem x h1

theorem insertV_perm (x : String) (l : List String) :
    List.Perm (insertV x l) (x :: l) := by
  induction l with
  | nil => exact List.Perm.refl _
  | cons y ys ih =>
    by_cases h : version_ord x y = .gt
    · simp only [insertV]
      rw [if_neg (fun hc => hc h)]
      exact (ih.cons y).trans (List.Perm.swap x y ys)
    · simp only [insertV]
      rw [if_pos h]

theorem sortV_perm (l : List String) : List.Perm (sortV l) l := by
  induction l with
  | nil => exact List.Perm.refl _
  | cons x xs ih =>
    simp only [sortV]
    exact (insertV_perm x (sortV xs)).trans (ih.cons x)

theorem length_sortV (l : List String) : (sortV l).length = l.length :=
  (sortV_perm l).length_eq

theorem insertV_head (x : String) (l : List String) :
    (insertV x l).head? = some x ∨ (insertV x l).head? = l.head? := by
  cases l with
  | nil => left; rfl
  | cons y ys =>
    by_cases h : version_ord x y = .gt
    · right
      simp only [insertV]
      rw [if_neg (fun hc => hc h)]
      rfl
    · left
      simp only [insertV]
      rw [if_pos h]
      rfl

theorem insertV_chain (x : String) :
    ∀ l : List String, l.Chain' (fun a b => version_ord a b ≠ .gt) →
      (insertV x l).Chain' (fun a b => version_ord a b ≠ .gt) := by
  intro l
  induction l with
  | nil => intro _; simp [insertV]
  | cons y ys ih =>
    intro hc
    rw [List.chain'_cons'] at hc
    obtain ⟨hhead, hys⟩ := hc
    by_cases h : version_ord x y = .gt
    · simp only [insertV]
      rw [if_neg (fun hcq => hcq h)]
      rw [List.chain'_cons']
      refine ⟨?_, ih hys⟩
      intro z hz
      rcases insertV_head x ys with hh | hh
      · rw [hh] at hz
        have hzx : x = z := by simpa using hz
        subst hzx
        rw [version_ord_swap, h]
        decide
      · rw [hh] at hz
        exact hhead z hz
    · simp only [insertV]
      rw [if_pos h]
      rw [List.chain'_cons]
      exact ⟨h, List.chain'_cons'.mpr ⟨hhead, hys⟩⟩

theorem sortV_chain (l : List String) :
    (sortV l).Chain' (fun a b => version_ord a b ≠ .gt) := by
  induction l with
  | nil => simp [sortV]
  | cons x xs ih =>
    simp only [sortV]
    exact insertV_chain x (sortV xs) ih

/-- Claim C5 (corrected), the counterexample: for `"1"` against `"1.2"`
the exhausted side is judged `IsSuperVersionOf`, not `IsSubVersionOf` as
the claim states. -/
theorem claim_C5_counterexample :
    relation_to "1" "1.2" = .IsSuperVersionOf ∧
      relation_to "1" "1.2" ≠ .IsSubVersionOf := by
  decide

/-- Claim C5 (corrected, amended): when one version's part sequence runs
out first with all prior parts matched (its parts are a strict dot-prefix
of the other's), `relation_to` judges the exhausted side
`IsSuperVersionOf` the other — equivalently the longer side is the
sub-version — and both sequences exhausting together with all parts equal
yields `Equal`. -/
theorem claim_C5_amended (a b : String) :
    (∀ l, l ≠ [] → iter_parts b = iter_parts a ++ l →
        relation_to a b = .IsSuperVersionOf ∧
          relation_to b a = .IsSubVersionOf) ∧
    (iter_parts a = iter_parts b → relation_to a b = .Equal) := by
  constructor
  · intro l hl hb
    unfold relation_to
    rw [hb]
    exact ⟨relation_to_parts_append_right _ l hl,
      relation_to_parts_append_left _ l hl⟩
  · intro h
    unfold relation_to
    rw [h]
    exact relation_to_parts_self _

/-- Claim C5, witness: the amended statement applied at `"1"` and
`"1.2"`. -/
theorem claim_C5_witness :
    relation_to "1" "1.2" = .IsSuperVersionOf ∧
      relation_to "1.2" "1" = .IsSubVersionOf :=
  (claim_C5_amended "1" "1.2").1 ["2"] (by decide) (by decide)

/-- Claim C6 (confirmed): when one version's part sequence is a strict
dot-prefix of the other's, `version_ord` reports `Equal` in both
directions, so a maximum chosen by `version_ord` can tie between a version
and any of its own refinements. -/
theorem claim_C6_version_ord_prefix_tie (a b : String) (l : List String)
    (_hl : l ≠ []) (hb : iter_parts b = iter_parts a ++ l) :
    version_ord a b = .eq ∧ version_ord b a = .eq := by
  unfold version_ord
  rw [hb]
  exact ⟨version_ord_parts_append_right _ l, version_ord_parts_append_left _ l⟩

/-- Claim C6, witness: `"1.12"` ties with its refinement
`"1.12.0.7192"`. -/
theorem claim_C6_witness :
    version_ord "1.12" "1.12.0.7192" = .eq ∧
      version_ord "1.12.0.7192" "1.12" = .eq :=
  claim_C6_version_ord_prefix_tie "1.12" "1.12.0.7192" ["0", "7192"]
    (by decide) (by decide)

/-- Claim C10 (confirmed): rendering `Selector::parse(s)` back to text —
the `':'` marker before a `Super`'s text, an `Alias`'s text bare —
reproduces `s` exactly, for every string `s`, including strings beginning
with several marker characters (only the first is stripped by
`strip_prefix`). -/
theorem claim_C10_selector_roundtrip (s : String) :
    (Selector.parse s).display = s := by
  cases s with
  | mk data =>
    cases data with
    | nil => rfl
    | cons c cs =>
      by_cases hc : c = ':'
      · subst hc
        simp [Selector.parse, Selector.display]
      · simp [Selector.parse, Selector.display, hc]

/-- Claim C7 (confirmed): with both home roots determined,
`find_toolchain_path` checks the custom root first, consults the cache
root only when the custom root lacks the version, reports not-found
exactly when neither root contains it, and returns the custom-root path
whenever the custom root contains the version — in particular when both
roots do. -/
theorem claim_C7_custom_wins (env : ToolchainEnv) (c h : List String)
    (v : String) (hc : env.customHome = some c) (hh : env.cacheHome = some h) :
    (env.pathExists (c ++ [v]) = true →
        find_toolchain_path env v = some (c ++ [v])) ∧
    (env.pathExists (c ++ [v]) = false →
        find_toolchain_path env v =
          (if env.pathExists (h ++ [v]) then some (h ++ [v]) else none)) ∧
    (find_toolchain_path env v = none ↔
        env.pathExists (c ++ [v]) = false ∧ env.pathExists (h ++ [v]) = false) := by
  have hhomes : env.homes = [c, h] := by
    unfold ToolchainEnv.homes
    rw [hc, hh]
  cases hpc : env.pathExists (c ++ [v]) <;> cases hph : env.pathExists (h ++ [v]) <;>
    simp [find_toolchain_path, hhomes, List.findSome?, hpc, hph]

/-- Claim C7, witness: with version `1.12` installed under both roots of
`envC7`, the custom-root path is returned. -/
theorem claim_C7_witness :
    find_toolchain_path envC7 "1.12" = some (["c"] ++ ["1.12"]) :=
  (claim_C7_custom_wins envC7 ["c"] ["h"] "1.12" rfl rfl).1 (by decide)

/-- Claim C2 (corrected), the counterexample: in `envC2` the cache root
holds the matching name `1.12.5`, which is `version_ord`-greater than the
only custom-root match `1.12.0`, yet `find_latest_toolchain_of` returns
the custom-root match — the two roots are not combined into one candidate
pool. -/
theorem claim_C2_counterexample :
    find_latest_toolchain_of envC2 "1.12" = some ("1.12.0", ["custom"]) ∧
      find_latest_toolchain_of envC2 "1.12" ≠ some ("1.12.5", ["cache"]) ∧
      is_sub_version_of "1.12.5" "1.12" = true ∧
      is_sub_version_of "1.12.0" "1.12" = true ∧
      version_ord "1.12.5" "1.12.0" = .gt := by
  decide

/-- Claim C2 (corrected, amended): `find_latest_toolchain_of` consults the
roots in order, custom first; whenever the custom root's listing is
readable and contains at least one name related to the super-version, the
result is that root's `max_by(version_ord)` candidate together with the
custom root — the cache root's contents are never combined in. -/
theorem claim_C2_first_root_with_match (env : ToolchainEnv)
    (c names : List String) (sv : String)
    (hc : env.customHome = some c) (hn : env.dirNames c = some names)
    (hm : names.filter (fun n => is_sub_version_of n sv) ≠ []) :
    ∃ m, m ∈ names.filter (fun n => is_sub_version_of n sv) ∧
      max_by_version_ord (names.filter (fun n => is_sub_version_of n sv)) = some m ∧
      find_latest_toolchain_of env sv = some (m, c) := by
  obtain ⟨m, hmax, hmem⟩ := max_by_version_ord_ne_nil _ hm
  refine ⟨m, hmem, hmax, ?_⟩
  have hhomes : env.homes =
      c :: (match env.cacheHome with | none => [] | some hh => [hh]) := by
    unfold ToolchainEnv.homes
    rw [hc]
  unfold find_latest_toolchain_of
  rw [hhomes]
  simp [List.findSome?, hn, hmax]

/-- Claim C2, witness: the amended statement applied to `envC2`. -/
theorem claim_C2_witness :
    ∃ m, m ∈ (["1.12.0"].filter (fun n => is_sub_version_of n "1.12")) ∧
      max_by_version_ord (["1.12.0"].filter (fun n => is_sub_version_of n "1.12")) =
        some m ∧
      find_latest_toolchain_of envC2 "1.12" = some (m, ["custom"]) :=
  claim_C2_first_root_with_match envC2 ["custom"] ["1.12.0"] "1.12"
    rfl (by decide) (by decide)

/-- Claim C8 (confirmed): branch selection for the alias `"stable"` sorts
the branch names ascending by `version_ord` (the sorted list is a
permutation of the input with no consecutive pair out of order), fails
exactly when fewer than two branches exist, and otherwise picks the
branch just below the single most-recent one: the selected branch sits
second in the reversed sorted order. -/
theorem claim_C8_stable_policy (bs : List String) :
    List.Perm (sortV bs) bs ∧
    List.Chain' (fun a b => version_ord a b ≠ .gt) (sortV bs) ∧
    (select_branch_stable bs = none ↔ bs.length < 2) ∧
    (∀ m, select_branch_stable bs = some m →
        m ∈ bs ∧ ∃ mx rest, (sortV bs).reverse = mx :: m :: rest) := by
  have hlen : (sortV bs).reverse.length = bs.length := by
    rw [List.length_reverse, length_sortV]
  refine ⟨sortV_perm bs, sortV_chain bs, ?_, ?_⟩
  · unfold select_branch_stable
    rcases hrev : (sortV bs).reverse with _ | ⟨a, _ | ⟨b, t⟩⟩ <;>
      rw [hrev] at hlen <;> simp_all <;> omega
  · intro m hm
    unfold select_branch_stable at hm
    rcases hrev : (sortV bs).reverse with _ | ⟨a, _ | ⟨b, t⟩⟩ <;> rw [hrev] at hm
    · exact absurd hm (by simp)
    · exact absurd hm (by simp)
    · have hbm : b = m := by simpa using hm
      subst hbm
      refine ⟨?_, a, t, rfl⟩
      have hmem : b ∈ (sortV bs).reverse := by
        rw [hrev]
        exact List.mem_cons_of_mem a (List.mem_cons_self b t)
      rw [List.mem_reverse] at hmem
      exact (sortV_perm bs).mem_iff.mp hmem

/-- Claim C8, witness: with remote branches `1.12` and `1.11`, the
`"stable"` policy selects `1.11`, the second-most-recent branch. -/
theorem claim_C8_witness :
    "1.11" ∈ ["1.12", "1.11"] ∧
      ∃ mx rest, (sortV ["1.12", "1.11"]).reverse = mx :: "1.11" :: rest :=
  (claim_C8_stable_policy ["1.12", "1.11"]).2.2.2 "1.11" (by decide)

/-- Claim C9 (confirmed): `RelevantUrl::new` keeps a remote file entry
exactly when its parsed target equals the running platform identifier and
its parsed version exists and is not the sentinel `"latest"`; a kept
entry carries the normalized version, with the `-git<N>` marker rewritten
into an appended `.N` part. -/
theorem claim_C9_relevant_url (os url : String) :
    ((RelevantUrl.new os url).isSome = true ↔
        url_target url = some os ∧
          ∃ v, url_version_str url = some v ∧ v ≠ "latest") ∧
    (∀ v, url_target url = some os → url_version_str url = some v →
        v ≠ "latest" →
        RelevantUrl.new os url = some ⟨url, version_normalized v⟩) := by
  constructor
  · unfold RelevantUrl.new
    cases ht : url_target url with
    | none => simp
    | some t =>
      cases hv : url_version_str url with
      | none => simp
      | some v =>
        by_cases hto : t = os <;> by_cases hvl : v = "latest" <;>
          simp [hto, hvl]
  · intro v ht hv hvl
    unfold RelevantUrl.new
    rw [ht, hv]
    simp [hvl]

/-- Claim C9, witness: on a linux run, the file
`sourcemod-1.12.0-git7192-linux.tar.gz` is kept and its version
normalizes to `1.12.0.7192`. -/
theorem claim_C9_witness :
    RelevantUrl.new "linux" "sourcemod-1.12.0-git7192-linux.tar.gz" =
      some ⟨"sourcemod-1.12.0-git7192-linux.tar.gz", "1.12.0.7192"⟩ := by
  have h := (claim_C9_relevant_url "linux"
    "sourcemod-1.12.0-git7192-linux.tar.gz").2 "1.12.0-git7192"
    (by decide) (by decide) (by decide)
  rw [h]
  decide

/-- Claim C1 (code bug), evaluation at the failing input: the archive
entry named `addons/sourcemod/scripting/../../spcomp64` survives
`map_to_sp_root` with the cleaned path `../../spcomp64` — no rejection of
results escaping above the stripped root exists — and, since its file
name is the platform compiler executable, `is_sp_file` keeps it, so the
install pipeline writes it to a path escaping the destination directory.
The `../../etc/passwd` shape from the claim, by contrast, is dropped, but
only by the include-or-compiler filter, not by any traversal check. -/
theorem claim_C1_zip_slip :
    map_to_sp_root "addons/sourcemod/scripting/../../spcomp64" =
      some ⟨false, ["..", "..", "spcomp64"]⟩ ∧
    is_sp_file "spcomp64" ⟨false, ["..", "..", "spcomp64"]⟩ = true ∧
    escapes_destination ⟨false, ["..", "..", "spcomp64"]⟩ = true ∧
    install_call paramsC1 =
      ([.httpGet "http://h/sm.tar.gz",
        .fileWrite ⟨false, ["..", "..", "spcomp64"]⟩], .ok ()) ∧
    map_to_sp_root "addons/sourcemod/scripting/../../etc/passwd" =
      some ⟨false, ["..", "..", "etc", "passwd"]⟩ ∧
    is_sp_file "spcomp64" ⟨false, ["..", "..", "etc", "passwd"]⟩ = false := by
  decide

/-- Claim C3 (corrected), the counterexample: for the tar.gz install
`paramsC3cex`, whose 1000-byte body exceeds the 600-byte limit, the first
entry is written before the limit strikes and the overrun at the second
entry's header is swallowed, so the install writes a file and reports
success instead of failing with a transfer error and writing nothing. -/
theorem claim_C3_counterexample :
    paramsC3cex.maxBytes < paramsC3cex.body.len ∧
      install_call paramsC3cex =
        ([.httpGet "http://h/sm.tar.gz",
          .fileWrite ⟨false, ["include", "a.inc"]⟩], .ok ()) ∧
      (install_call paramsC3cex).2 ≠ .error .transfer := by
  decide

/-- Claim C3 (corrected, amended): on the zip path a body longer than the
configured maximum fails as a transfer error while buffering, before any
file is written; on the streamed tar.gz path the bound strikes mid-stream,
so entries extracted earlier remain on disk — in `paramsC3pipe` the
entry's file is created and the copy then fails with the bound
exceeded. -/
theorem claim_C3_amended (p : InstallParams) :
    (ArchiveKind.from_str p.url = some .Zip → p.maxBytes < p.body.len →
        install_call p = ([.httpGet p.url], .error .transfer)) ∧
    install_call paramsC3pipe =
      ([.httpGet "http://h/sm.tar.gz",
        .fileWrite ⟨false, ["include", "a.inc"]⟩],
       .error (.pipe ⟨false, ["include", "a.inc"]⟩)) := by
  constructor
  · intro h1 h2
    unfold install_call
    rw [h1]
    simp [h2]
  · decide

/-- Claim C3, witness: the zip part of the amended statement applied to a
10-byte body against a 5-byte limit. -/
theorem claim_C3_witness :
    install_call ⟨"http://h/sm.zip", 5, ⟨10, []⟩, "spcomp64"⟩ =
      ([.httpGet "http://h/sm.zip"], .error .transfer) :=
  (claim_C3_amended ⟨"http://h/sm.zip", 5, ⟨10, []⟩, "spcomp64"⟩).1
    (by decide) (by decide)

/-- Claim C4 (corrected), the counterexample: for the unsupported suffix
`.rar` the install does fail with a format error, but only after the HTTP
GET against the source URL was already issued — the trace of
`install_call` contains the network request. -/
theorem claim_C4_counterexample :
    (install_call paramsC4cex).2 = .error .format ∧
      (install_call paramsC4cex).1 = [.httpGet "http://h/sm.rar"] ∧
      .httpGet "http://h/sm.rar" ∈ (install_call paramsC4cex).1 := by
  decide

/-- Claim C4 (corrected, amended): the archive format is determined purely
from the URL suffix — the response body is universally quantified here and
never consulted — and for any suffix other than `.zip` or `.tar.gz` the
install fails with a format error after issuing the HTTP GET but before
reading the response body or writing any file: the trace is exactly the
single GET. -/
theorem claim_C4_format_from_suffix (url : String) (maxBytes : Nat)
    (body : RemoteBody) (spcompExe : String)
    (h : ArchiveKind.from_str url = none) :
    install_call ⟨url, maxBytes, body, spcompExe⟩ =
      ([.httpGet url], .error .format) := by
  unfold install_call
  rw [h]

/-- Claim C4, witness: the amended statement applied to the `.rar`
URL. -/
theorem claim_C4_witness :
    install_call ⟨"http://h/sm.rar", 100, ⟨10, []⟩, "spcomp64"⟩ =
      ([.httpGet "http://h/sm.rar"], .error .format) :=
  claim_C4_format_from_suffix "http://h/sm.rar" 100 ⟨10, []⟩ "spcomp64"
    (by decide)

end Rookup
